import Mathlib

/-!
Verification of the bitmap and 8-ary sparse-Merkle-tree builder.

The development shallowly embeds two Rust modules:

* `src/rust/src/bitmap.rs` — a bit vector backed by a vector of 32-bit
  words, with MSB-first addressing inside each word.
* `src/rust/src/lib.rs` — `build_tree_from_bitmap`, a two-phase bulk
  builder of an 8-ary Merkle tree from a bitmap, with an all-zero-octet
  fast path and a deduplicating hash database.

Machine words are modelled as `Nat`.  Every bitmap operation reads or
writes only bit positions `0..31` of a word, so the embedded operations
agree with the 32-bit originals without explicit truncation.  Fallible
(index-panicking) operations return `Option`; `none` models a Rust
out-of-bounds panic.  The external Poseidon hash, the field-element type
and its byte encoding are parameters (`HashFn`), since the repository
treats them as opaque external capabilities.
-/

namespace RustModel

/-- Rust `struct Bitmap { items: Vec<u32> }`. -/
structure Bitmap where
  items : List Nat
deriving DecidableEq

/-- `Bitmap::get_index_and_shift`: word index `i / 32`, MSB-first shift
`31 - (i % 32)`. -/
def Bitmap.get_index_and_shift (i : Nat) : Nat × Nat :=
  (i / 32, 31 - i % 32)

/-- `Bitmap::len`: `32 * self.items.len()`. -/
def Bitmap.len (b : Bitmap) : Nat := 32 * b.items.length

/-- `Bitmap::new`: `bit_count / 32` words, plus one more when
`bit_count % 32 > 0`; always returns `Ok`. -/
def Bitmap.new (bit_count : Nat) : Option Bitmap :=
  some { items := List.replicate (bit_count / 32 + if bit_count % 32 > 0 then 1 else 0) 0 }

/-- `Bitmap::get_bit`: `(item >> shift) & 1 == 1`. -/
def Bitmap.get_bit (b : Bitmap) (i : Nat) : Option Bool :=
  let p := Bitmap.get_index_and_shift i
  (b.items.get? p.1).map (fun item => (item >>> p.2) &&& 1 == 1)

/-- `Bitmap::set_bit`: `item | (1 << shift)`. -/
def Bitmap.set_bit (b : Bitmap) (i : Nat) : Option Bitmap :=
  let p := Bitmap.get_index_and_shift i
  (b.items.get? p.1).map (fun item =>
    { items := b.items.set p.1 (item ||| (1 <<< p.2)) })

/-- `Bitmap::unset_bit`: `item & !(1 << shift)` on a 32-bit word. -/
def Bitmap.unset_bit (b : Bitmap) (i : Nat) : Option Bitmap :=
  let p := Bitmap.get_index_and_shift i
  (b.items.get? p.1).map (fun item =>
    { items := b.items.set p.1 (item &&& (4294967295 ^^^ (1 <<< p.2))) })

/-- `Bitmap::get_byte_for_bit`: `((item >> ((shift / 8) * 8)) as u8) & 0xFF`. -/
def Bitmap.get_byte_for_bit (b : Bitmap) (i : Nat) : Option Nat :=
  let p := Bitmap.get_index_and_shift i
  (b.items.get? p.1).map (fun item => (item >>> (p.2 / 8 * 8)) % 256)

/-! ### Basic bitmap lemmas -/

theorem beq_and_one (x s : Nat) : ((x >>> s) &&& 1 == 1) = x.testBit s := by
  rw [Nat.testBit_to_div_mod, Nat.shiftRight_eq_div_pow, Nat.and_one_is_mod]
  by_cases h : x / 2 ^ s % 2 = 1 <;> simp [h]

theorem index_lt_of_lt_len {b : Bitmap} {i : Nat} (h : i < b.len) :
    i / 32 < b.items.length := by
  unfold Bitmap.len at h; omega

theorem get_bit_eq_testBit {b : Bitmap} {i : Nat} {item : Nat}
    (h : b.items.get? (i / 32) = some item) :
    b.get_bit i = some (item.testBit (31 - i % 32)) := by
  simp only [Bitmap.get_bit, Bitmap.get_index_and_shift, h, Option.map_some']
  rw [beq_and_one]

theorem get_byte_for_bit_eq {b : Bitmap} {i : Nat} {item : Nat}
    (h : b.items.get? (i / 32) = some item) :
    b.get_byte_for_bit i = some ((item >>> ((31 - i % 32) / 8 * 8)) % 256) := by
  simp only [Bitmap.get_byte_for_bit, Bitmap.get_index_and_shift, h, Option.map_some']

/-- C6: `Bitmap::new` always succeeds, allocates exactly
`ceil(bit_count/32)` words all zero, reports a length that is a
multiple of 32 and at least the request, and every bit reads false. -/
theorem new_spec (n : Nat) :
    ∃ b : Bitmap, Bitmap.new n = some b ∧
      b.items.length = (n + 31) / 32 ∧
      (∀ w ∈ b.items, w = 0) ∧
      32 ∣ b.len ∧ n ≤ b.len ∧
      (∀ i, i < b.len → b.get_bit i = some false) := by
  refine ⟨_, rfl, ?_, ?_, ?_, ?_, ?_⟩
  · simp only [List.length_replicate]
    split <;> omega
  · intro w hw
    exact (List.eq_of_mem_replicate hw)
  · exact ⟨_, rfl⟩
  · simp only [Bitmap.len, List.length_replicate]
    split <;> omega
  · intro i hi
    have hlt : i / 32 < (List.replicate (n / 32 + if n % 32 > 0 then 1 else 0) (0 : Nat)).length := by
      simp only [Bitmap.len, List.length_replicate] at hi ⊢
      omega
    have : (List.replicate (n / 32 + if n % 32 > 0 then 1 else 0) (0 : Nat)).get? (i / 32)
        = some 0 := by
      rw [List.get?_eq_get hlt]
      simp
    rw [get_bit_eq_testBit this]
    simp

theorem get?_of_lt_len {b : Bitmap} {i : Nat} (h : i < b.len) :
    ∃ item, b.items.get? (i / 32) = some item := by
  have hlt := index_lt_of_lt_len h
  exact ⟨_, List.get?_eq_get hlt⟩

/-- C7: for an in-range index, `set_bit(i)` succeeds, makes
`get_bit(i)` true, and leaves every other in-range bit unchanged. -/
theorem set_bit_spec {b : Bitmap} {i : Nat} (hi : i < b.len) :
    ∃ b', b.set_bit i = some b' ∧ b'.len = b.len ∧
      b'.get_bit i = some true ∧
      (∀ j, j < b.len → j ≠ i → b'.get_bit j = b.get_bit j) := by
  obtain ⟨item, hitem⟩ := get?_of_lt_len hi
  have hlt := index_lt_of_lt_len hi
  refine ⟨⟨b.items.set (i / 32) (item ||| 1 <<< (31 - i % 32))⟩, ?_, ?_, ?_, ?_⟩
  · simp only [Bitmap.set_bit, Bitmap.get_index_and_shift, hitem, Option.map_some']
  · simp [Bitmap.len]
  · have hset : (b.items.set (i / 32) (item ||| 1 <<< (31 - i % 32))).get? (i / 32)
        = some (item ||| 1 <<< (31 - i % 32)) :=
      List.get?_set_eq_of_lt _ hlt
    rw [get_bit_eq_testBit (b := ⟨_⟩) hset]
    have : (1 : Nat) <<< (31 - i % 32) = 2 ^ (31 - i % 32) := by
      rw [Nat.shiftLeft_eq, Nat.one_mul]
    simp [this, Nat.testBit_two_pow_self]
  · intro j hj hne
    by_cases hw : j / 32 = i / 32
    · have hs : 31 - j % 32 ≠ 31 - i % 32 := by omega
      have hset : (b.items.set (i / 32) (item ||| 1 <<< (31 - i % 32))).get? (j / 32)
          = some (item ||| 1 <<< (31 - i % 32)) := by
        rw [hw]; exact List.get?_set_eq_of_lt _ hlt
      have hbj : b.items.get? (j / 32) = some item := by rw [hw]; exact hitem
      rw [get_bit_eq_testBit (b := ⟨_⟩) hset, get_bit_eq_testBit hbj]
      have h2 : (1 : Nat) <<< (31 - i % 32) = 2 ^ (31 - i % 32) := by
        rw [Nat.shiftLeft_eq, Nat.one_mul]
      simp [h2, Nat.testBit_or, Nat.testBit_two_pow_of_ne (Ne.symm hs)]
    · have hset : (b.items.set (i / 32) (item ||| 1 <<< (31 - i % 32))).get? (j / 32)
          = b.items.get? (j / 32) :=
        List.get?_set_ne _ _ (fun h => hw h.symm)
      obtain ⟨itemj, hitemj⟩ := get?_of_lt_len hj
      rw [get_bit_eq_testBit (b := ⟨_⟩) (hset.trans hitemj), get_bit_eq_testBit hitemj]

/-! ### The byte probe `get_byte_for_bit` -/

theorem byte_testBit (item s t : Nat) (ht : t < 8) :
    ((item >>> (s / 8 * 8)) % 256).testBit t = item.testBit (s / 8 * 8 + t) := by
  have h256 : (256 : Nat) = 2 ^ 8 := rfl
  rw [h256, Nat.testBit_mod_two_pow, Nat.testBit_shiftRight]
  simp [ht]

theorem byte_zero_iff (item s : Nat) :
    (item >>> (s / 8 * 8)) % 256 = 0 ↔
      ∀ t, t < 8 → item.testBit (s / 8 * 8 + t) = false := by
  constructor
  · intro hv t ht
    rw [← byte_testBit item s t ht, hv]
    simp
  · intro h
    apply Nat.eq_of_testBit_eq
    intro u
    simp only [Nat.zero_testBit]
    by_cases hu : u < 8
    · rw [byte_testBit item s u hu]
      exact h u hu
    · have hlt : (item >>> (s / 8 * 8)) % 256 < 2 ^ u := by
        calc (item >>> (s / 8 * 8)) % 256 < 256 := Nat.mod_lt _ (by norm_num)
          _ = 2 ^ 8 := rfl
          _ ≤ 2 ^ u := Nat.pow_le_pow_right (by norm_num) (by omega)
      exact Nat.testBit_lt_two_pow hlt

theorem octet_arith1 (i t : Nat) (ht : t < 8) :
    (8 * (i / 8) + (7 - t)) / 32 = i / 32 ∧
      31 - (8 * (i / 8) + (7 - t)) % 32 = (31 - i % 32) / 8 * 8 + t := by
  omega

theorem octet_arith2 (i j : Nat) (h1 : 8 * (i / 8) ≤ j) (h2 : j < 8 * (i / 8) + 8) :
    j / 32 = i / 32 ∧
      31 - j % 32 = (31 - i % 32) / 8 * 8 + (8 * (i / 8) + 7 - j) ∧
      8 * (i / 8) + 7 - j < 8 := by
  omega

/-- C9: the word-relative byte `get_byte_for_bit(i)` extracts is
exactly the globally 8-aligned leaf octet `[8*(i/8), 8*(i/8)+8)`
(bit `t` of the byte is bit `8*(i/8) + (7-t)` of the bitmap), so the
probe is 0 iff every bit of that octet is unset — the builder's fast
path never skips a group containing a set bit. -/
theorem get_byte_octet_spec {b : Bitmap} {i : Nat} (hi : i < b.len) :
    ∃ v, b.get_byte_for_bit i = some v ∧ v < 256 ∧
      (∀ t, t < 8 →
        (v.testBit t = true ↔ b.get_bit (8 * (i / 8) + (7 - t)) = some true)) ∧
      (v = 0 ↔ ∀ j, 8 * (i / 8) ≤ j → j < 8 * (i / 8) + 8 →
        b.get_bit j = some false) := by
  obtain ⟨item, hitem⟩ := get?_of_lt_len hi
  refine ⟨_, get_byte_for_bit_eq hitem, Nat.mod_lt _ (by norm_num), ?_, ?_⟩
  · intro t ht
    obtain ⟨ha1, ha2⟩ := octet_arith1 i t ht
    have hj : b.items.get? ((8 * (i / 8) + (7 - t)) / 32) = some item := by
      rw [ha1]; exact hitem
    rw [get_bit_eq_testBit hj, ha2, byte_testBit item _ t ht]
    simp
  · constructor
    · intro hv j h1 h2
      obtain ⟨ha1, ha2, ha3⟩ := octet_arith2 i j h1 h2
      have hj : b.items.get? (j / 32) = some item := by rw [ha1]; exact hitem
      rw [get_bit_eq_testBit hj, ha2,
        (byte_zero_iff item (31 - i % 32)).mp hv _ ha3]
    · intro h
      apply (byte_zero_iff item (31 - i % 32)).mpr
      intro t ht
      obtain ⟨ha1, ha2⟩ := octet_arith1 i t ht
      have hj : b.items.get? ((8 * (i / 8) + (7 - t)) / 32) = some item := by
        rw [ha1]; exact hitem
      have := h (8 * (i / 8) + (7 - t)) (by omega) (by omega)
      rw [get_bit_eq_testBit hj, ha2] at this
      simpa using this

theorem wordrel_arith (i j : Nat) (hb : (31 - j % 32) / 8 = (31 - i % 32) / 8) :
    31 - j % 32 = (31 - i % 32) / 8 * 8 + (31 - j % 32) % 8 ∧ (31 - j % 32) % 8 < 8 := by
  omega

theorem wordrel_construct (i t : Nat) (ht : t < 8) :
    (32 * (i / 32) + (31 - ((31 - i % 32) / 8 * 8 + t))) / 32 = i / 32 ∧
      (31 - (32 * (i / 32) + (31 - ((31 - i % 32) / 8 * 8 + t))) % 32) / 8
        = (31 - i % 32) / 8 ∧
      31 - (32 * (i / 32) + (31 - ((31 - i % 32) / 8 * 8 + t))) % 32
        = (31 - i % 32) / 8 * 8 + t := by
  omega

/-- C4: `get_byte_for_bit(i)` returns 0 exactly when all 8 bits of
the enclosing word-relative 8-bit group (byte boundary
`(shift/8)*8` inside `i`'s word) are unset, and when `get_bit(i)` is
true the byte is non-zero with the bit at `i`'s in-byte position
(`shift % 8`) set. -/
theorem get_byte_group_spec {b : Bitmap} {i : Nat} (hi : i < b.len) :
    ∃ v, b.get_byte_for_bit i = some v ∧
      (v = 0 ↔ ∀ j, j < b.len → j / 32 = i / 32 →
          (31 - j % 32) / 8 = (31 - i % 32) / 8 → b.get_bit j = some false) ∧
      (b.get_bit i = some true →
        v ≠ 0 ∧ v.testBit ((31 - i % 32) % 8) = true) := by
  obtain ⟨item, hitem⟩ := get?_of_lt_len hi
  have hlt := index_lt_of_lt_len hi
  refine ⟨_, get_byte_for_bit_eq hitem, ?_, ?_⟩
  · constructor
    · intro hv j hjlen hw hb
      obtain ⟨ha1, ha2⟩ := wordrel_arith i j hb
      have hj : b.items.get? (j / 32) = some item := by rw [hw]; exact hitem
      rw [get_bit_eq_testBit hj, ha1,
        (byte_zero_iff item (31 - i % 32)).mp hv _ ha2]
    · intro h
      apply (byte_zero_iff item (31 - i % 32)).mpr
      intro t ht
      obtain ⟨hc1, hc2, hc3⟩ := wordrel_construct i t ht
      have hjlen : 32 * (i / 32) + (31 - ((31 - i % 32) / 8 * 8 + t)) < b.len := by
        simp only [Bitmap.len]
        omega
      have hj : b.items.get? ((32 * (i / 32) + (31 - ((31 - i % 32) / 8 * 8 + t))) / 32)
          = some item := by rw [hc1]; exact hitem
      have := h _ hjlen hc1 hc2
      rw [get_bit_eq_testBit hj, hc3] at this
      simpa using this
  · intro h
    rw [get_bit_eq_testBit hitem] at h
    have hbit : item.testBit (31 - i % 32) = true := by simpa using h
    have harith : (31 - i % 32) / 8 * 8 + (31 - i % 32) % 8 = 31 - i % 32 := by omega
    have hv : ((item >>> ((31 - i % 32) / 8 * 8)) % 256).testBit ((31 - i % 32) % 8)
        = true := by
      rw [byte_testBit item _ _ (by omega), harith, hbit]
    refine ⟨?_, hv⟩
    intro hzero
    rw [hzero] at hv
    simp at hv

/-! ### The tree builder `build_tree_from_bitmap`

The external capabilities (Poseidon hash over field elements, byte
encoding of a field element) are parameters: `F` is the domain-value
type, `K` the key type of the hash database.  The hash database
`InMemoryHashDb<DbVal8ary>` is modelled as an association list. -/

/-- The external hash/field capabilities consumed by the builder:
`hash` is `PoseidonHash8::hash`, `toBytes` is `FieldElement::to_bytes`,
`zero`/`one` are `FieldElement::zero()`/`one()`. -/
structure HashFn (F K : Type) where
  hash : List F → F
  toBytes : F → K
  zero : F
  one : F

/-- The hash database: keys are digest bytes, values the 8 children. -/
abbrev Db (F K : Type) := List (K × List F)

variable {F K : Type}

/-- `HashDb::contains_key`. -/
def dbContains [DecidableEq K] (db : Db F K) (k : K) : Bool :=
  db.any (fun e => decide (e.1 = k))

/-- `HashDb::insert`. -/
def dbInsert (db : Db F K) (k : K) (v : List F) : Db F K :=
  (k, v) :: db

/-- Lookup in the database (content addressing). -/
def dbLookup [DecidableEq K] (k : K) : Db F K → Option (List F)
  | [] => none
  | e :: rest => if e.1 = k then some e.2 else dbLookup k rest

/-- The inner loop `for j in i..i+8`: builds the `siblings` array, one
domain value per bit (`one` where the bit is set, `zero` elsewhere);
`none` models a `get_bit` panic. -/
def readBits (hp : HashFn F K) (b : Bitmap) : Nat → Nat → Option (List F)
  | _, 0 => some []
  | j, n + 1 =>
    match b.get_bit j, readBits hp b (j + 1) n with
    | some s, some rest => some ((if s then hp.one else hp.zero) :: rest)
    | _, _ => none

/-- Phase A loop of `build_tree_from_bitmap` (the `loop` over leaf
octets, a do-while stepping `i` by 8 until `i >= b.len()`).  `fuel`
bounds the iteration count; every use supplies enough fuel, which the
lemmas below verify.  `hz` is the cached `hash_all_zeros`. -/
def phaseAGo [DecidableEq K] (hp : HashFn F K) (hz : F) (b : Bitmap) :
    Nat → Nat → List F → Db F K → Option (List F × Db F K)
  | 0, _, _, _ => none
  | fuel + 1, i, acc, db =>
    match b.get_byte_for_bit i with
    | none => none
    | some next8 =>
      match (if next8 > 0 then
               (readBits hp b i 8).map (fun siblings =>
                 (acc ++ [hp.hash siblings],
                   if dbContains db (hp.toBytes (hp.hash siblings)) then db
                   else dbInsert db (hp.toBytes (hp.hash siblings)) siblings))
             else some (acc ++ [hz], db)) with
      | none => none
      | some (acc', db') =>
        if i + 8 ≥ b.len then some (acc', db')
        else phaseAGo hp hz b fuel (i + 8) acc' db'

/-- Phase B inner loop: walks the previous level's children from the
last group of 8 backward (`i` starts at `len - 8`, decreases by 8),
appending each group's hash forward.  `none` models a slice panic or a
`usize` underflow of `i -= 8`. -/
def phaseBGo [DecidableEq K] (hp : HashFn F K) (cs : List F) :
    Nat → Nat → List F → Db F K → Option (List F × Db F K)
  | 0, _, _, _ => none
  | fuel + 1, i, acc, db =>
    if i + 8 ≤ cs.length then
      let siblings := (cs.drop i).take 8
      let acc' := acc ++ [hp.hash siblings]
      let db' := if dbContains db (hp.toBytes (hp.hash siblings)) then db
                 else dbInsert db (hp.toBytes (hp.hash siblings)) siblings
      if i = 0 then some (acc', db')
      else if i < 8 then none
      else phaseBGo hp cs fuel (i - 8) acc' db'
    else none

/-- One Phase B level: `children_at_this_level` is consumed starting at
`i = len - 8`; an initial length below 8 underflows (panics). -/
def phaseBLevel [DecidableEq K] (hp : HashFn F K) (cs : List F) (db : Db F K) :
    Option (List F × Db F K) :=
  if cs.length < 8 then none
  else phaseBGo hp cs (cs.length / 8 + 1) (cs.length - 8) [] db

/-- The `for _level in (2..depth).rev()` loop: `depth - 2` reduction
iterations. -/
def phaseB [DecidableEq K] (hp : HashFn F K) :
    Nat → List F × Db F K → Option (List F × Db F K)
  | 0, st => some st
  | n + 1, st =>
    match phaseBLevel hp st.1 st.2 with
    | none => none
    | some st' => phaseB hp n st'

/-- `build_tree_from_bitmap`: Phase A over the bitmap's leaf octets,
then `depth - 2` Phase B levels, then the root hash of the remaining
children.  Returns the root and the final database (the root is the
value assigned to `tree.root`). -/
def build_tree_from_bitmap [DecidableEq K] (hp : HashFn F K) (depth : Nat)
    (b : Bitmap) (db : Db F K) : Option (F × Db F K) :=
  let hash_all_zeros := hp.hash (List.replicate 8 hp.zero)
  match phaseAGo hp hash_all_zeros b (b.len / 8 + 1) 0 [] db with
  | none => none
  | some st =>
    match phaseB hp (depth - 2) st with
    | none => none
    | some st' => some (hp.hash st'.1, st'.2)

/-! ### Pure views of the two phases

`leafChildren` and `levelOnce` compute, as pure functions of the bitmap
and the hash parameters, the children sequences the loops produce;
the lemmas below prove the loops return exactly these (they receive the
database but their children output does not depend on it). -/

/-- The hash Phase A records for the leaf octet starting at bit `i`
(the all-zero fast path returns the cached `hz`). -/
def leafGroupHash (hp : HashFn F K) (hz : F) (b : Bitmap) (i : Nat) : F :=
  match b.get_byte_for_bit i with
  | some next8 =>
    if next8 > 0 then
      match readBits hp b i 8 with
      | some s => hp.hash s
      | none => hz
    else hz
  | none => hz

/-- All leaf-octet hashes, in ascending group order. -/
def leafChildren (hp : HashFn F K) (hz : F) (b : Bitmap) : List F :=
  (List.range (b.len / 8)).map (fun g => leafGroupHash hp hz b (8 * g))

/-- One Phase B level as the code performs it: group `g` of the output
is the hash of the slice starting at `cs.length - 8 - 8*g`, i.e. the
groups of the previous level in descending (right-to-left) order. -/
def levelOnce (hp : HashFn F K) (cs : List F) : List F :=
  (List.range (cs.length / 8)).map
    (fun g => hp.hash ((cs.drop (cs.length - 8 - 8 * g)).take 8))

/-- `n` Phase B levels as the code performs them. -/
def iterLevels (hp : HashFn F K) : Nat → List F → List F
  | 0, cs => cs
  | n + 1, cs => iterLevels hp n (levelOnce hp cs)

/-- The root the code computes, as a pure function of the bitmap. -/
def codeRoot (hp : HashFn F K) (depth : Nat) (b : Bitmap) : F :=
  hp.hash (iterLevels hp (depth - 2)
    (leafChildren hp (hp.hash (List.replicate 8 hp.zero)) b))

/-- One internal level in the canonical order required by the spec:
group `g` of the output is the hash of the slice starting at `8*g`
(ascending, left-to-right). -/
def levelOnceSpec (hp : HashFn F K) (cs : List F) : List F :=
  (List.range (cs.length / 8)).map (fun g => hp.hash ((cs.drop (8 * g)).take 8))

/-- `n` canonical internal levels. -/
def iterLevelsSpec (hp : HashFn F K) : Nat → List F → List F
  | 0, cs => cs
  | n + 1, cs => iterLevelsSpec hp n (levelOnceSpec hp cs)

/-- Modelled from the spec: the canonical root, with every internal
level built in the same left-to-right group order as the leaf level. -/
def specRoot (hp : HashFn F K) (depth : Nat) (b : Bitmap) : F :=
  hp.hash (iterLevelsSpec hp (depth - 2)
    (leafChildren hp (hp.hash (List.replicate 8 hp.zero)) b))

/-- The closed-form reference value for the all-zero tree: `n` rounds
of hashing 8 copies of the previous value. -/
def iterHash (hp : HashFn F K) : Nat → F → F
  | 0, v => v
  | n + 1, v => hp.hash (List.replicate 8 (iterHash hp n v))

/-! ### Database lemmas -/

theorem dbContains_append [DecidableEq K] (d1 d2 : Db F K) (k : K) :
    dbContains (d1 ++ d2) k = (dbContains d1 k || dbContains d2 k) := by
  simp [dbContains, List.any_append]

theorem not_key_of_contains_false [DecidableEq K] {d : Db F K} {k : K}
    (h : dbContains d k = false) : ∀ e ∈ d, e.1 ≠ k := by
  simp only [dbContains, List.any_eq_false, decide_eq_true_eq] at h
  exact h

theorem contains_of_lookup [DecidableEq K] {d : Db F K} {k : K} {v : List F}
    (h : dbLookup k d = some v) : dbContains d k = true := by
  induction d with
  | nil => simp [dbLookup] at h
  | cons e rest ih =>
    simp only [dbLookup] at h
    by_cases he : e.1 = k
    · simp [dbContains, he]
    · simp only [he, if_false] at h
      have := ih h
      simp only [dbContains, List.any_cons] at this ⊢
      simp [this]

theorem dbLookup_append_of_contains_false [DecidableEq K] {pre : Db F K} {k : K}
    (h : dbContains pre k = false) (db : Db F K) :
    dbLookup k (pre ++ db) = dbLookup k db := by
  induction pre with
  | nil => rfl
  | cons e rest ih =>
    simp only [dbContains, List.any_cons, Bool.or_eq_false_iff,
      decide_eq_false_iff_not] at h
    simp only [List.cons_append, dbLookup, if_neg h.1]
    exact ih (by simp only [dbContains]; exact h.2)

/-- Combining the fresh entries of two successive insert-if-absent
stages. -/
theorem pre_combine [DecidableEq K] {pre1 pre2 db : Db F K}
    (h1 : ∀ e ∈ pre1, dbContains db e.1 = false)
    (n1 : (pre1.map Prod.fst).Nodup)
    (h2 : ∀ e ∈ pre2, dbContains (pre1 ++ db) e.1 = false)
    (n2 : (pre2.map Prod.fst).Nodup) :
    (∀ e ∈ pre2 ++ pre1, dbContains db e.1 = false) ∧
      ((pre2 ++ pre1).map Prod.fst).Nodup := by
  constructor
  · intro e he
    rcases List.mem_append.mp he with h | h
    · have := h2 e h
      rw [dbContains_append] at this
      exact (Bool.or_eq_false_iff.mp this).2
    · exact h1 e h
  · rw [List.map_append]
    apply List.Nodup.append n2 n1
    intro a ha2 ha1
    obtain ⟨e2, he2, hk2⟩ := List.mem_map.mp ha2
    obtain ⟨e1, he1, hk1⟩ := List.mem_map.mp ha1
    have hc := h2 e2 he2
    rw [dbContains_append] at hc
    have := not_key_of_contains_false (Bool.or_eq_false_iff.mp hc).1 e1 he1
    exact this (hk1.trans hk2.symm)

/-! ### Phase A lemmas -/

theorem get_bit_isSome {b : Bitmap} {j : Nat} (h : j < b.len) :
    ∃ v, b.get_bit j = some v := by
  obtain ⟨item, hitem⟩ := get?_of_lt_len h
  exact ⟨_, get_bit_eq_testBit hitem⟩

theorem readBits_ok (hp : HashFn F K) (b : Bitmap) :
    ∀ n j, j + n ≤ b.len → ∃ s, readBits hp b j n = some s ∧ s.length = n := by
  intro n
  induction n with
  | zero => intro j _; exact ⟨[], rfl, rfl⟩
  | succ n ih =>
    intro j hj
    obtain ⟨v, hv⟩ := get_bit_isSome (b := b) (j := j) (by omega)
    obtain ⟨rest, hrest, hlen⟩ := ih (j + 1) (by omega)
    refine ⟨(if v then hp.one else hp.zero) :: rest, ?_, by simp [hlen]⟩
    simp [readBits, hv, hrest]

/-- The leaf-octet patterns Phase A hashes and records: one entry per
group whose probe byte is non-zero, each the exact 8-value children
array. -/
def nonZeroOctets (hp : HashFn F K) (b : Bitmap) : List (List F) :=
  (List.range (b.len / 8)).filterMap (fun g =>
    match b.get_byte_for_bit (8 * g) with
    | some next8 => if next8 > 0 then readBits hp b (8 * g) 8 else none
    | none => none)

theorem mem_nonZeroOctets (hp : HashFn F K) {b : Bitmap} {i next8 : Nat}
    {s : List F} (h8 : 8 ∣ i) (hle : i + 8 ≤ b.len)
    (hprobe : b.get_byte_for_bit i = some next8) (hpos : next8 > 0)
    (hs : readBits hp b i 8 = some s) :
    s ∈ nonZeroOctets hp b := by
  apply List.mem_filterMap.mpr
  refine ⟨i / 8, List.mem_range.mpr (by omega), ?_⟩
  have hmul : 8 * (i / 8) = i := by omega
  rw [hmul, hprobe]
  simp [hpos, hs]

/-- One iteration of the Phase A loop body. -/
theorem phaseAGo_step [DecidableEq K] (hp : HashFn F K) (hz : F) (b : Bitmap)
    {i : Nat} (fuel : Nat) (acc : List F) (db : Db F K)
    (h8 : 8 ∣ i) (hle : i + 8 ≤ b.len) :
    ∃ pre1 : Db F K, (∀ e ∈ pre1, dbContains db e.1 = false) ∧
      (pre1.map Prod.fst).Nodup ∧
      (∀ e ∈ pre1, ∃ s, s ∈ nonZeroOctets hp b ∧
        e.1 = hp.toBytes (hp.hash s) ∧ e.2 = s) ∧
      phaseAGo hp hz b (fuel + 1) i acc db =
        (if i + 8 ≥ b.len
         then some (acc ++ [leafGroupHash hp hz b i], pre1 ++ db)
         else phaseAGo hp hz b fuel (i + 8)
           (acc ++ [leafGroupHash hp hz b i]) (pre1 ++ db)) := by
  have hi : i < b.len := by omega
  obtain ⟨item, hitem⟩ := get?_of_lt_len hi
  have hprobe := get_byte_for_bit_eq hitem
  obtain ⟨s, hs, hslen⟩ := readBits_ok hp b 8 i (by omega)
  by_cases hpos : ((item >>> ((31 - i % 32) / 8 * 8)) % 256) > 0
  · have hX : leafGroupHash hp hz b i = hp.hash s := by
      simp only [leafGroupHash, hprobe]
      simp [hpos, hs]
    by_cases hcont : dbContains db (hp.toBytes (hp.hash s)) = true
    · refine ⟨[], by simp, by simp, by simp, ?_⟩
      simp only [phaseAGo, hprobe, if_pos hpos, hs, Option.map_some', hX,
        hcont, if_true, List.nil_append]
    · have hcf : dbContains db (hp.toBytes (hp.hash s)) = false :=
        Bool.eq_false_iff.mpr hcont
      refine ⟨[(hp.toBytes (hp.hash s), s)], ?_, by simp, ?_, ?_⟩
      · intro e he
        rcases List.mem_singleton.mp he with rfl
        exact hcf
      · intro e he
        rcases List.mem_singleton.mp he with rfl
        exact ⟨s, mem_nonZeroOctets hp h8 hle hprobe hpos hs, rfl, rfl⟩
      · simp only [phaseAGo, hprobe, if_pos hpos, hs, Option.map_some', hX,
          hcf, Bool.false_eq_true, if_false, dbInsert, List.singleton_append]
  · have hzero : ((item >>> ((31 - i % 32) / 8 * 8)) % 256) = 0 := by omega
    have hX : leafGroupHash hp hz b i = hz := by
      simp only [leafGroupHash, hprobe]
      simp [hpos]
    refine ⟨[], by simp, by simp, by simp, ?_⟩
    simp only [phaseAGo, hprobe, if_neg hpos, hX, List.nil_append]

/-- The Phase A loop, fully characterised: on an in-bounds, 8-aligned
start it succeeds, appends one `leafGroupHash` per remaining group in
ascending order, and extends the database with fresh leaf-layer entries
only. -/
theorem phaseAGo_spec [DecidableEq K] (hp : HashFn F K) (hz : F) (b : Bitmap)
    (hlen : 8 ∣ b.len) :
    ∀ fuel i acc db, 8 ∣ i → i + 8 ≤ b.len → (b.len - i) / 8 ≤ fuel →
      ∃ pre : Db F K, phaseAGo hp hz b fuel i acc db
          = some (acc ++ (List.range ((b.len - i) / 8)).map
              (fun g => leafGroupHash hp hz b (i + 8 * g)), pre ++ db)
        ∧ (∀ e ∈ pre, dbContains db e.1 = false)
        ∧ (pre.map Prod.fst).Nodup
        ∧ (∀ e ∈ pre, ∃ s, s ∈ nonZeroOctets hp b ∧
            e.1 = hp.toBytes (hp.hash s) ∧ e.2 = s) := by
  intro fuel
  induction fuel with
  | zero => intro i acc db _ hle hf; omega
  | succ fuel ih =>
    intro i acc db h8 hle hf
    obtain ⟨pre1, hc1, hn1, hpat1, hstep⟩ := phaseAGo_step hp hz b fuel acc db h8 hle
    by_cases hstop : i + 8 ≥ b.len
    · have hieq : i + 8 = b.len := by omega
      have hone : (b.len - i) / 8 = 1 := by omega
      refine ⟨pre1, ?_, hc1, hn1, hpat1⟩
      rw [hstep, if_pos hstop, hone]
      have : (List.range 1).map (fun g => leafGroupHash hp hz b (i + 8 * g))
          = [leafGroupHash hp hz b i] := by
        have h1 : List.range 1 = [0] := rfl
        rw [h1, List.map_singleton, Nat.mul_zero, Nat.add_zero]
      rw [this]
    · have hlt : i + 8 < b.len := by omega
      have hle' : (i + 8) + 8 ≤ b.len := by omega
      obtain ⟨pre2, heq2, hc2, hn2, hpat2⟩ :=
        ih (i + 8) (acc ++ [leafGroupHash hp hz b i]) (pre1 ++ db)
          (by omega) hle' (by omega)
      obtain ⟨hcc, hnn⟩ := pre_combine hc1 hn1 hc2 hn2
      refine ⟨pre2 ++ pre1, ?_, hcc, hnn, ?_⟩
      · have hsucc : (b.len - i) / 8 = (b.len - (i + 8)) / 8 + 1 := by omega
        have hlist : acc ++ [leafGroupHash hp hz b i] ++
            List.map (fun g => leafGroupHash hp hz b (i + 8 + 8 * g))
              (List.range ((b.len - (i + 8)) / 8))
            = acc ++ List.map (fun g => leafGroupHash hp hz b (i + 8 * g))
              (List.range ((b.len - i) / 8)) := by
          rw [hsucc, List.range_succ_eq_map, List.map_cons, List.map_map,
            List.append_assoc, List.singleton_append, Nat.mul_zero, Nat.add_zero]
          congr 2
          apply List.map_congr_left
          intro g _
          simp only [Function.comp_apply]
          congr 1
          omega
        rw [hstep, if_neg hstop, heq2, hlist, List.append_assoc]
      · intro e he
        rcases List.mem_append.mp he with h | h
        · exact hpat2 e h
        · exact hpat1 e h

/-! ### Phase B lemmas -/

theorem phaseBGo_step [DecidableEq K] (hp : HashFn F K) (cs : List F) {i : Nat}
    (fuel : Nat) (acc : List F) (db : Db F K) (hle : i + 8 ≤ cs.length) :
    ∃ pre1 : Db F K, (∀ e ∈ pre1, dbContains db e.1 = false) ∧
      (pre1.map Prod.fst).Nodup ∧
      phaseBGo hp cs (fuel + 1) i acc db =
        (if i = 0 then some (acc ++ [hp.hash ((cs.drop i).take 8)], pre1 ++ db)
         else if i < 8 then none
         else phaseBGo hp cs fuel (i - 8)
           (acc ++ [hp.hash ((cs.drop i).take 8)]) (pre1 ++ db)) := by
  by_cases hcont : dbContains db (hp.toBytes (hp.hash ((cs.drop i).take 8))) = true
  · refine ⟨[], by simp, by simp, ?_⟩
    simp only [phaseBGo, if_pos hle, hcont, if_true, List.nil_append]
  · have hcf : dbContains db (hp.toBytes (hp.hash ((cs.drop i).take 8))) = false :=
      Bool.eq_false_iff.mpr hcont
    refine ⟨[(hp.toBytes (hp.hash ((cs.drop i).take 8)), (cs.drop i).take 8)],
      ?_, by simp, ?_⟩
    · intro e he
      rcases List.mem_singleton.mp he with rfl
      exact hcf
    · simp only [phaseBGo, if_pos hle, hcf, Bool.false_eq_true, if_false,
        dbInsert, List.singleton_append]

/-- The Phase B inner loop, fully characterised: starting at an
8-aligned `i` it emits the groups at `i, i-8, …, 0` in that order
(i.e. the previous level right-to-left) and only adds fresh entries. -/
theorem phaseBGo_spec [DecidableEq K] (hp : HashFn F K) (cs : List F) :
    ∀ fuel i acc db, 8 ∣ i → i + 8 ≤ cs.length → i / 8 + 1 ≤ fuel →
      ∃ pre : Db F K, phaseBGo hp cs fuel i acc db
          = some (acc ++ (List.range (i / 8 + 1)).map
              (fun g => hp.hash ((cs.drop (i - 8 * g)).take 8)), pre ++ db)
        ∧ (∀ e ∈ pre, dbContains db e.1 = false)
        ∧ (pre.map Prod.fst).Nodup := by
  intro fuel
  induction fuel with
  | zero => intro i acc db _ _ hf; omega
  | succ fuel ih =>
    intro i acc db h8 hle hf
    obtain ⟨pre1, hc1, hn1, hstep⟩ := phaseBGo_step hp cs fuel acc db hle
    by_cases hzero : i = 0
    · subst hzero
      refine ⟨pre1, ?_, hc1, hn1⟩
      rw [hstep, if_pos rfl]
      have h1 : List.range (0 / 8 + 1) = [0] := rfl
      rw [h1, List.map_singleton, Nat.mul_zero, Nat.sub_zero]
    · have h8le : 8 ≤ i := by omega
      obtain ⟨pre2, heq2, hc2, hn2⟩ :=
        ih (i - 8) (acc ++ [hp.hash ((cs.drop i).take 8)]) (pre1 ++ db)
          (by omega) (by omega) (by omega)
      obtain ⟨hcc, hnn⟩ := pre_combine hc1 hn1 hc2 hn2
      refine ⟨pre2 ++ pre1, ?_, hcc, hnn⟩
      have hsucc : i / 8 + 1 = ((i - 8) / 8 + 1) + 1 := by omega
      have hlist : acc ++ [hp.hash ((cs.drop i).take 8)] ++
          List.map (fun g => hp.hash ((cs.drop (i - 8 - 8 * g)).take 8))
            (List.range ((i - 8) / 8 + 1))
          = acc ++ List.map (fun g => hp.hash ((cs.drop (i - 8 * g)).take 8))
            (List.range (i / 8 + 1)) := by
        rw [hsucc, List.append_assoc, List.singleton_append]
        have hr : List.range ((i - 8) / 8 + 1 + 1)
            = 0 :: (List.range ((i - 8) / 8 + 1)).map Nat.succ :=
          List.range_succ_eq_map _
        rw [hr, List.map_cons, List.map_map, Nat.mul_zero, Nat.sub_zero]
        congr 2
        apply List.map_congr_left
        intro g _
        simp only [Function.comp_apply]
        congr 3
        omega
      rw [hstep, if_neg hzero, if_neg (by omega), heq2, hlist, List.append_assoc]

theorem levelOnce_length (hp : HashFn F K) (cs : List F) :
    (levelOnce hp cs).length = cs.length / 8 := by
  simp [levelOnce]

/-- One Phase B level equals `levelOnce` (the code's descending group
order), database effects insert-if-absent only. -/
theorem phaseBLevel_spec [DecidableEq K] (hp : HashFn F K) {cs : List F}
    (db : Db F K) (h8 : 8 ∣ cs.length) (hge : 8 ≤ cs.length) :
    ∃ pre : Db F K, phaseBLevel hp cs db = some (levelOnce hp cs, pre ++ db)
      ∧ (∀ e ∈ pre, dbContains db e.1 = false)
      ∧ (pre.map Prod.fst).Nodup := by
  obtain ⟨pre, heq, hc, hn⟩ := phaseBGo_spec hp cs (cs.length / 8 + 1)
    (cs.length - 8) [] db (by omega) (by omega) (by omega)
  refine ⟨pre, ?_, hc, hn⟩
  rw [phaseBLevel, if_neg (by omega), heq]
  have hcount : (cs.length - 8) / 8 + 1 = cs.length / 8 := by omega
  rw [hcount, List.nil_append]
  rfl

/-- The Phase B outer loop: `k` levels starting from a power-of-8-sized
children sequence compute `iterLevels` and only add fresh entries. -/
theorem phaseB_spec [DecidableEq K] (hp : HashFn F K) :
    ∀ k e (cs : List F) (db : Db F K), cs.length = 8 ^ (e + 1) → k ≤ e →
      ∃ pre : Db F K, phaseB hp k (cs, db)
          = some (iterLevels hp k cs, pre ++ db)
        ∧ (∀ x ∈ pre, dbContains db x.1 = false)
        ∧ (pre.map Prod.fst).Nodup := by
  intro k
  induction k with
  | zero =>
    intro e cs db _ _
    exact ⟨[], by simp [phaseB, iterLevels], by simp, by simp⟩
  | succ k ih =>
    intro e cs db hlen hke
    have hge : 8 ≤ cs.length := by
      rw [hlen]
      calc (8 : Nat) = 8 ^ 1 := (pow_one 8).symm
        _ ≤ 8 ^ (e + 1) := Nat.pow_le_pow_right (by norm_num) (by omega)
    have h8 : 8 ∣ cs.length := by
      rw [hlen, pow_succ]
      exact dvd_mul_left 8 (8 ^ e)
    obtain ⟨pre1, hlevel, hc1, hn1⟩ := phaseBLevel_spec hp db h8 hge
    have hlen' : (levelOnce hp cs).length = 8 ^ (e - 1 + 1) := by
      rw [levelOnce_length, hlen]
      have : e + 1 = (e - 1 + 1) + 1 := by omega
      rw [this, pow_succ]
      exact Nat.mul_div_cancel _ (by norm_num)
    obtain ⟨pre2, heq2, hc2, hn2⟩ :=
      ih (e - 1) (levelOnce hp cs) (pre1 ++ db) hlen' (by omega)
    obtain ⟨hcc, hnn⟩ := pre_combine hc1 hn1 hc2 hn2
    refine ⟨pre2 ++ pre1, ?_, hcc, hnn⟩
    simp only [phaseB, hlevel, heq2, iterLevels, List.append_assoc]

theorem iterLevels_length_pow (hp : HashFn F K) :
    ∀ k e (cs : List F), k ≤ e → cs.length = 8 ^ (e + 1) →
      (iterLevels hp k cs).length = 8 ^ (e + 1 - k) := by
  intro k
  induction k with
  | zero => intro e cs _ h; simpa [iterLevels] using h
  | succ k ih =>
    intro e cs hke hlen
    have hlev : (levelOnce hp cs).length = 8 ^ (e - 1 + 1) := by
      rw [levelOnce_length, hlen]
      have he : e + 1 = (e - 1 + 1) + 1 := by omega
      rw [he, pow_succ]
      exact Nat.mul_div_cancel _ (by norm_num)
    have hrec := ih (e - 1) (levelOnce hp cs) (by omega) hlev
    simp only [iterLevels]
    rw [hrec]
    congr 1
    omega

/-- The whole builder, characterised: Phase A returns `leafChildren`,
Phase B returns `iterLevels` over them with exactly 8 children left,
the root is `codeRoot`, and the database only ever gains fresh
entries. -/
theorem build_tree_spec [DecidableEq K] (hp : HashFn F K) {depth : Nat}
    {b : Bitmap} (db : Db F K) (hlen : b.len = 8 ^ depth) (hd : 2 ≤ depth) :
    ∃ preA preB : Db F K,
      phaseAGo hp (hp.hash (List.replicate 8 hp.zero)) b (b.len / 8 + 1) 0 [] db
        = some (leafChildren hp (hp.hash (List.replicate 8 hp.zero)) b, preA ++ db)
      ∧ (∀ e ∈ preA, dbContains db e.1 = false)
      ∧ (preA.map Prod.fst).Nodup
      ∧ (∀ e ∈ preA, ∃ s, s ∈ nonZeroOctets hp b ∧
          e.1 = hp.toBytes (hp.hash s) ∧ e.2 = s)
      ∧ phaseB hp (depth - 2)
          (leafChildren hp (hp.hash (List.replicate 8 hp.zero)) b, preA ++ db)
        = some (iterLevels hp (depth - 2)
            (leafChildren hp (hp.hash (List.replicate 8 hp.zero)) b),
          preB ++ (preA ++ db))
      ∧ (∀ e ∈ preB, dbContains (preA ++ db) e.1 = false)
      ∧ (preB.map Prod.fst).Nodup
      ∧ (leafChildren hp (hp.hash (List.replicate 8 hp.zero)) b).length
          = 8 ^ (depth - 1)
      ∧ (iterLevels hp (depth - 2)
          (leafChildren hp (hp.hash (List.replicate 8 hp.zero)) b)).length = 8
      ∧ build_tree_from_bitmap hp depth b db
          = some (codeRoot hp depth b, preB ++ (preA ++ db)) := by
  have h8len : 8 ∣ b.len := by
    rw [hlen]; exact dvd_pow_self 8 (by omega)
  have hge : 8 ≤ b.len := by
    rw [hlen]
    calc (8 : Nat) = 8 ^ 1 := (pow_one 8).symm
      _ ≤ 8 ^ depth := Nat.pow_le_pow_right (by norm_num) (by omega)
  obtain ⟨preA, heqA, hcA, hnA, hpatA⟩ :=
    phaseAGo_spec hp (hp.hash (List.replicate 8 hp.zero)) b h8len
      (b.len / 8 + 1) 0 [] db (dvd_zero 8) (by omega) (by omega)
  have hchild : ([] : List F) ++ (List.range ((b.len - 0) / 8)).map
      (fun g => leafGroupHash hp (hp.hash (List.replicate 8 hp.zero)) b (0 + 8 * g))
      = leafChildren hp (hp.hash (List.replicate 8 hp.zero)) b := by
    rw [List.nil_append, Nat.sub_zero, leafChildren]
    apply List.map_congr_left
    intro g _
    congr 1
    omega
  rw [hchild] at heqA
  have hlenA : (leafChildren hp (hp.hash (List.replicate 8 hp.zero)) b).length
      = 8 ^ (depth - 1) := by
    rw [leafChildren, List.length_map, List.length_range, hlen]
    have h1 : (8 : Nat) ^ depth = 8 ^ (depth - 1) * 8 := by
      rw [← pow_succ]
      congr 1
      omega
    rw [h1]
    exact Nat.mul_div_cancel _ (by norm_num)
  have hlenA' : (leafChildren hp (hp.hash (List.replicate 8 hp.zero)) b).length
      = 8 ^ ((depth - 2) + 1) := by
    rw [hlenA]
    congr 1
    omega
  obtain ⟨preB, heqB, hcB, hnB⟩ :=
    phaseB_spec hp (depth - 2) (depth - 2)
      (leafChildren hp (hp.hash (List.replicate 8 hp.zero)) b)
      (preA ++ db) hlenA' (le_refl _)
  have hlenIter : (iterLevels hp (depth - 2)
      (leafChildren hp (hp.hash (List.replicate 8 hp.zero)) b)).length = 8 := by
    have := iterLevels_length_pow hp (depth - 2) (depth - 2)
      (leafChildren hp (hp.hash (List.replicate 8 hp.zero)) b) (le_refl _) hlenA'
    rw [this]
    have he : depth - 2 + 1 - (depth - 2) = 1 := by omega
    rw [he, pow_one]
  refine ⟨preA, preB, heqA, hcA, hnA, hpatA, heqB, hcB, hnB, hlenA, hlenIter, ?_⟩
  simp only [build_tree_from_bitmap, heqA, heqB, codeRoot]

theorem lookup_preserved [DecidableEq K] {pre db : Db F K}
    (hc : ∀ e ∈ pre, dbContains db e.1 = false) {k : K} {v : List F}
    (h : dbLookup k db = some v) : dbLookup k (pre ++ db) = some v := by
  have hck : dbContains pre k = false := by
    cases hcb : dbContains pre k with
    | false => rfl
    | true =>
      obtain ⟨e, he, hek⟩ := List.any_eq_true.mp hcb
      have hek' : e.1 = k := of_decide_eq_true hek
      have := hc e he
      rw [hek'] at this
      rw [contains_of_lookup h] at this
      exact absurd this (by simp)
  rw [dbLookup_append_of_contains_false hck, h]

theorem key_count_bound [DecidableEq F] [DecidableEq K] (hp : HashFn F K)
    {pre : Db F K} {pats : List (List F)}
    (hn : (pre.map Prod.fst).Nodup)
    (hpat : ∀ e ∈ pre, ∃ s, s ∈ pats ∧ e.1 = hp.toBytes (hp.hash s) ∧ e.2 = s) :
    pre.length ≤ pats.dedup.length := by
  have hsub : (pre.map Prod.fst).toFinset ⊆
      (pats.map (fun s => hp.toBytes (hp.hash s))).toFinset := by
    intro a ha
    rw [List.mem_toFinset] at ha ⊢
    obtain ⟨e, he, hae⟩ := List.mem_map.mp ha
    obtain ⟨s, hs, hks, _⟩ := hpat e he
    exact List.mem_map.mpr ⟨s, hs, by rw [← hks, hae]⟩
  calc pre.length = (pre.map Prod.fst).length := (List.length_map _ _).symm
    _ = (pre.map Prod.fst).toFinset.card := (List.toFinset_card_of_nodup hn).symm
    _ ≤ (pats.map (fun s => hp.toBytes (hp.hash s))).toFinset.card :=
        Finset.card_le_card hsub
    _ = (pats.toFinset.image (fun s => hp.toBytes (hp.hash s))).card := by
        congr 1
        ext a
        simp [List.mem_toFinset, Finset.mem_image, List.mem_map]
    _ ≤ pats.toFinset.card := Finset.card_image_le
    _ = pats.dedup.length := List.card_toFinset pats

/-- C3: Phase A yields one hash per leaf group (`8^(depth-1)` of them);
after `depth - 2` Phase B iterations exactly 8 children remain, and the
root field receives the hash of those 8 values. -/
theorem build_phase_structure [DecidableEq K] (hp : HashFn F K) {depth : Nat}
    {b : Bitmap} (db : Db F K) (hlen : b.len = 8 ^ depth) (hd : 2 ≤ depth) :
    ∃ dbA cs' db',
      phaseAGo hp (hp.hash (List.replicate 8 hp.zero)) b (b.len / 8 + 1) 0 [] db
        = some (leafChildren hp (hp.hash (List.replicate 8 hp.zero)) b, dbA)
      ∧ (leafChildren hp (hp.hash (List.replicate 8 hp.zero)) b).length
          = 8 ^ (depth - 1)
      ∧ phaseB hp (depth - 2)
          (leafChildren hp (hp.hash (List.replicate 8 hp.zero)) b, dbA)
        = some (cs', db')
      ∧ cs'.length = 8
      ∧ build_tree_from_bitmap hp depth b db = some (hp.hash cs', db') := by
  obtain ⟨preA, preB, h1, _, _, _, h5, _, _, h8, h9, h10⟩ :=
    build_tree_spec hp db hlen hd
  exact ⟨preA ++ db, _, _, h1, h8, h5, h9, h10⟩

/-- C10: under the stated precondition every bitmap access and slice
index is in bounds — the builder returns a value, never the `none`
that models an index-out-of-bounds panic. -/
theorem build_no_out_of_bounds [DecidableEq K] (hp : HashFn F K) {depth : Nat}
    {b : Bitmap} (db : Db F K) (hlen : b.len = 8 ^ depth) (hd : 2 ≤ depth) :
    (build_tree_from_bitmap hp depth b db).isSome = true := by
  obtain ⟨_, _, _, _, _, _, _, _, _, _, _, h10⟩ := build_tree_spec hp db hlen hd
  rw [h10]
  rfl

/-- C8: the root is a pure function of the bitmap — two builds from the
same bitmap, each with its own (arbitrarily initialised) database,
produce the identical root hash `codeRoot`. -/
theorem build_deterministic [DecidableEq K] (hp : HashFn F K) {depth : Nat}
    {b : Bitmap} (db1 db2 : Db F K) (hlen : b.len = 8 ^ depth)
    (hd : 2 ≤ depth) :
    (build_tree_from_bitmap hp depth b db1).map Prod.fst
        = some (codeRoot hp depth b)
      ∧ (build_tree_from_bitmap hp depth b db2).map Prod.fst
        = some (codeRoot hp depth b) := by
  obtain ⟨_, _, _, _, _, _, _, _, _, _, _, h10⟩ := build_tree_spec hp db1 hlen hd
  obtain ⟨_, _, _, _, _, _, _, _, _, _, _, h10'⟩ := build_tree_spec hp db2 hlen hd
  rw [h10, h10']
  exact ⟨rfl, rfl⟩

/-- C5: the builder only ever inserts keys that are absent (existing
bindings survive unchanged), and Phase A grows the database by at most
one entry per distinct non-zero leaf octet pattern. -/
theorem build_insert_if_absent_dedup [DecidableEq F] [DecidableEq K]
    (hp : HashFn F K) {depth : Nat} {b : Bitmap} (db : Db F K)
    (hlen : b.len = 8 ^ depth) (hd : 2 ≤ depth) :
    ∃ r db', build_tree_from_bitmap hp depth b db = some (r, db')
      ∧ (∀ k v, dbLookup k db = some v → dbLookup k db' = some v)
      ∧ ∃ dbA, phaseAGo hp (hp.hash (List.replicate 8 hp.zero)) b
            (b.len / 8 + 1) 0 [] db
          = some (leafChildren hp (hp.hash (List.replicate 8 hp.zero)) b, dbA)
        ∧ dbA.length ≤ db.length + (nonZeroOctets hp b).dedup.length := by
  obtain ⟨preA, preB, h1, hcA, hnA, hpatA, _, hcB, _, _, _, h10⟩ :=
    build_tree_spec hp db hlen hd
  refine ⟨_, _, h10, ?_, preA ++ db, h1, ?_⟩
  · intro k v hkv
    exact lookup_preserved hcB (lookup_preserved hcA hkv)
  · have hbound := key_count_bound hp hnA hpatA
    rw [List.length_append]
    omega

/-! ### The all-zero bitmap (claim C2) -/

theorem leafGroupHash_zero (hp : HashFn F K) (hz : F) {m g : Nat}
    (hg : 8 * g < 32 * m) :
    leafGroupHash hp hz ⟨List.replicate m 0⟩ (8 * g) = hz := by
  have hlt : (8 * g) / 32 < (List.replicate m (0 : Nat)).length := by
    simp only [List.length_replicate]
    omega
  have hitem : (⟨List.replicate m 0⟩ : Bitmap).items.get? ((8 * g) / 32)
      = some 0 := by
    show (List.replicate m (0 : Nat)).get? ((8 * g) / 32) = some 0
    rw [List.get?_eq_get hlt]
    simp
  have hprobe := get_byte_for_bit_eq (b := ⟨List.replicate m 0⟩) hitem
  simp only [Nat.zero_shiftRight, Nat.zero_mod] at hprobe
  simp only [leafGroupHash, hprobe]
  simp

theorem leafChildren_zero (hp : HashFn F K) (hz : F) (m : Nat) :
    leafChildren hp hz ⟨List.replicate m 0⟩ = List.replicate ((32 * m) / 8) hz := by
  have hlen : (⟨List.replicate m 0⟩ : Bitmap).len = 32 * m := by
    simp [Bitmap.len]
  rw [leafChildren, hlen]
  apply List.eq_replicate.mpr
  constructor
  · simp
  · intro x hx
    obtain ⟨g, hg, rfl⟩ := List.mem_map.mp hx
    have hglt : g < (32 * m) / 8 := List.mem_range.mp hg
    exact leafGroupHash_zero hp hz (by omega)

theorem levelOnce_replicate (hp : HashFn F K) (m : Nat) (h : F) (_hm : 1 ≤ m) :
    levelOnce hp (List.replicate (8 * m) h)
      = List.replicate m (hp.hash (List.replicate 8 h)) := by
  rw [levelOnce]
  apply List.eq_replicate.mpr
  constructor
  · simp only [List.length_map, List.length_range, List.length_replicate]
    omega
  · intro x hx
    obtain ⟨g, hg, rfl⟩ := List.mem_map.mp hx
    have hglt : g < m := by
      have := List.mem_range.mp hg
      simp only [List.length_replicate] at this
      omega
    congr 1
    simp only [List.length_replicate, List.drop_replicate, List.take_replicate]
    congr 1
    omega

theorem iterHash_shift (hp : HashFn F K) :
    ∀ k (v : F), iterHash hp (k + 1) v
      = iterHash hp k (hp.hash (List.replicate 8 v)) := by
  intro k
  induction k with
  | zero => intro v; rfl
  | succ k ih =>
    intro v
    show hp.hash (List.replicate 8 (iterHash hp (k + 1) v)) = _
    rw [ih v]
    rfl

theorem iterLevels_replicate (hp : HashFn F K) :
    ∀ k e (h : F), k ≤ e →
      iterLevels hp k (List.replicate (8 ^ (e + 1)) h)
        = List.replicate (8 ^ (e + 1 - k)) (iterHash hp k h) := by
  intro k
  induction k with
  | zero => intro e h _; rfl
  | succ k ih =>
    intro e h hke
    simp only [iterLevels]
    have h8 : (8 : Nat) ^ (e + 1) = 8 * 8 ^ e := by
      rw [pow_succ]; ring
    rw [h8, levelOnce_replicate hp (8 ^ e) h (Nat.one_le_pow _ _ (by norm_num))]
    have he : (8 : Nat) ^ e = 8 ^ ((e - 1) + 1) := by
      congr 1
      omega
    rw [he, ih (e - 1) _ (by omega)]
    congr 1
    · congr 1
      omega
    · exact (iterHash_shift hp k h).symm

/-- C2: building from the all-zero bitmap of capacity `8^depth` yields
the closed-form reference root: `depth - 1` rounds of hashing 8 copies,
starting from the all-zero-octet hash. -/
theorem build_all_zero_root [DecidableEq K] (hp : HashFn F K) (depth : Nat)
    (db : Db F K) (hd : 2 ≤ depth) :
    ∃ b r db', Bitmap.new (8 ^ depth) = some b
      ∧ build_tree_from_bitmap hp depth b db = some (r, db')
      ∧ r = iterHash hp (depth - 1) (hp.hash (List.replicate 8 hp.zero)) := by
  have h32 : 32 ∣ 8 ^ depth := by
    have hde : depth = 2 + (depth - 2) := by omega
    rw [hde, pow_add]
    exact Dvd.dvd.mul_right (by norm_num) _
  have hmod : 8 ^ depth % 32 = 0 := by
    obtain ⟨c, hc⟩ := h32
    rw [hc]
    exact Nat.mul_mod_right 32 c
  have hnew : Bitmap.new (8 ^ depth)
      = some ⟨List.replicate (8 ^ depth / 32) 0⟩ := by
    simp [Bitmap.new, hmod]
  have hlen : (⟨List.replicate (8 ^ depth / 32) 0⟩ : Bitmap).len = 8 ^ depth := by
    simp only [Bitmap.len, List.length_replicate]
    exact Nat.mul_div_cancel' h32
  obtain ⟨preA, preB, _, _, _, _, _, _, _, _, _, hbuild⟩ :=
    build_tree_spec hp db hlen hd
  refine ⟨⟨List.replicate (8 ^ depth / 32) 0⟩, codeRoot hp depth _, _,
    hnew, hbuild, ?_⟩
  rw [codeRoot, leafChildren_zero]
  have h32m : 32 * (8 ^ depth / 32) = 8 ^ depth := Nat.mul_div_cancel' h32
  have hcount : (32 * (8 ^ depth / 32)) / 8 = 8 ^ ((depth - 2) + 1) := by
    rw [h32m]
    have hsplit : (8 : Nat) ^ depth = 8 ^ ((depth - 2) + 1) * 8 := by
      rw [← pow_succ]
      congr 1
      omega
    rw [hsplit]
    exact Nat.mul_div_cancel _ (by norm_num)
  rw [hcount, iterLevels_replicate hp (depth - 2) (depth - 2) _ (le_refl _)]
  have h1 : depth - 2 + 1 - (depth - 2) = 1 := by omega
  rw [h1, pow_one]
  have h2 : depth - 1 = (depth - 2) + 1 := by omega
  rw [h2]
  rfl

/-! ### Concrete instantiation

A small order-sensitive stand-in for the external Poseidon hash, used
for concrete evaluations: collision behaviour is irrelevant to the
order and bookkeeping properties exercised below. -/

def hashNat : List Nat → Nat := fun l => l.foldl (fun a x => 3 * a + x) 1

def hpNat : HashFn Nat Nat := ⟨hashNat, fun x => x, 0, 1⟩

/-- Depth-3 bitmap (capacity `8^3 = 512`) with only bit 0 set. -/
def bC1 : Bitmap := ⟨2 ^ 31 :: List.replicate 15 0⟩

/-- Depth-2 bitmap (capacity 64) with only bit 5 set (the spec's own
concrete scenario). -/
def b5 : Bitmap := ⟨[2 ^ 26, 0]⟩

/-- One-word bitmap with only bit 18 set (the repository's own unit
test input). -/
def bW : Bitmap := ⟨[2 ^ 13]⟩

/-- C1 (refuted — code bug): at depth 3 with only bit 0 set the build
succeeds, its internal level is exactly the canonical (ascending)
level reversed, and the root it assigns differs from the canonical
root `specRoot` obtained by visiting groups in the leaf level's
left-to-right order. -/
theorem phaseB_order_reversal_bug :
    bC1.len = 8 ^ 3
    ∧ (build_tree_from_bitmap hpNat 3 bC1 []).map Prod.fst
        = some (codeRoot hpNat 3 bC1)
    ∧ levelOnce hpNat
        (leafChildren hpNat (hpNat.hash (List.replicate 8 hpNat.zero)) bC1)
      = (levelOnceSpec hpNat
          (leafChildren hpNat (hpNat.hash (List.replicate 8 hpNat.zero)) bC1)).reverse
    ∧ codeRoot hpNat 3 bC1 ≠ specRoot hpNat 3 bC1 :=
  ⟨by decide, by decide, by decide, by decide⟩

/-! ### Witnesses -/

theorem new_spec_witness :
    ∃ b : Bitmap, Bitmap.new 25 = some b ∧
      b.items.length = (25 + 31) / 32 ∧
      (∀ w ∈ b.items, w = 0) ∧
      32 ∣ b.len ∧ 25 ≤ b.len ∧
      (∀ i, i < b.len → b.get_bit i = some false) :=
  new_spec 25

theorem set_bit_spec_witness :
    (18 : Nat) < bW.len ∧
    ∃ b', bW.set_bit 18 = some b' ∧ b'.len = bW.len ∧
      b'.get_bit 18 = some true ∧
      (∀ j, j < bW.len → j ≠ 18 → b'.get_bit j = bW.get_bit j) :=
  ⟨by decide, set_bit_spec (by decide)⟩

theorem get_byte_group_spec_witness :
    (18 : Nat) < bW.len ∧
    ∃ v, bW.get_byte_for_bit 18 = some v ∧
      (v = 0 ↔ ∀ j, j < bW.len → j / 32 = 18 / 32 →
          (31 - j % 32) / 8 = (31 - 18 % 32) / 8 → bW.get_bit j = some false) ∧
      (bW.get_bit 18 = some true →
        v ≠ 0 ∧ v.testBit ((31 - 18 % 32) % 8) = true) :=
  ⟨by decide, get_byte_group_spec (by decide)⟩

theorem get_byte_octet_spec_witness :
    (18 : Nat) < bW.len ∧
    ∃ v, bW.get_byte_for_bit 18 = some v ∧ v < 256 ∧
      (∀ t, t < 8 →
        (v.testBit t = true ↔ bW.get_bit (8 * (18 / 8) + (7 - t)) = some true)) ∧
      (v = 0 ↔ ∀ j, 8 * (18 / 8) ≤ j → j < 8 * (18 / 8) + 8 →
        bW.get_bit j = some false) :=
  ⟨by decide, get_byte_octet_spec (by decide)⟩

theorem build_all_zero_root_witness :
    2 ≤ 2 ∧
    ∃ b r db', Bitmap.new (8 ^ 2) = some b
      ∧ build_tree_from_bitmap hpNat 2 b [] = some (r, db')
      ∧ r = iterHash hpNat (2 - 1) (hpNat.hash (List.replicate 8 hpNat.zero)) :=
  ⟨by decide, build_all_zero_root hpNat 2 [] (by decide)⟩

theorem build_phase_structure_witness :
    b5.len = 8 ^ 2 ∧
    ∃ dbA cs' db',
      phaseAGo hpNat (hpNat.hash (List.replicate 8 hpNat.zero)) b5
          (b5.len / 8 + 1) 0 [] []
        = some (leafChildren hpNat (hpNat.hash (List.replicate 8 hpNat.zero)) b5,
            dbA)
      ∧ (leafChildren hpNat (hpNat.hash (List.replicate 8 hpNat.zero)) b5).length
          = 8 ^ (2 - 1)
      ∧ phaseB hpNat (2 - 2)
          (leafChildren hpNat (hpNat.hash (List.replicate 8 hpNat.zero)) b5, dbA)
        = some (cs', db')
      ∧ cs'.length = 8
      ∧ build_tree_from_bitmap hpNat 2 b5 [] = some (hpNat.hash cs', db') :=
  ⟨by decide, build_phase_structure hpNat [] (by decide) (by decide)⟩

theorem build_no_out_of_bounds_witness :
    b5.len = 8 ^ 2 ∧
    (build_tree_from_bitmap hpNat 2 b5 []).isSome = true :=
  ⟨by decide, build_no_out_of_bounds hpNat [] (by decide) (by decide)⟩

theorem build_deterministic_witness :
    b5.len = 8 ^ 2 ∧
    ((build_tree_from_bitmap hpNat 2 b5 []).map Prod.fst
        = some (codeRoot hpNat 2 b5)
      ∧ (build_tree_from_bitmap hpNat 2 b5 [(99, [0])]).map Prod.fst
        = some (codeRoot hpNat 2 b5)) :=
  ⟨by decide, build_deterministic hpNat [] [(99, [0])] (by decide) (by decide)⟩

theorem build_insert_if_absent_dedup_witness :
    b5.len = 8 ^ 2 ∧
    ∃ r db', build_tree_from_bitmap hpNat 2 b5 [] = some (r, db')
      ∧ (∀ k v, dbLookup k ([] : Db Nat Nat) = some v → dbLookup k db' = some v)
      ∧ ∃ dbA, phaseAGo hpNat (hpNat.hash (List.replicate 8 hpNat.zero)) b5
            (b5.len / 8 + 1) 0 [] []
          = some (leafChildren hpNat (hpNat.hash (List.replicate 8 hpNat.zero)) b5,
              dbA)
        ∧ dbA.length ≤ ([] : Db Nat Nat).length
            + (nonZeroOctets hpNat b5).dedup.length :=
  ⟨by decide, build_insert_if_absent_dedup hpNat [] (by decide) (by decide)⟩

end RustModel
